import Mathlib

/-!
Verification of the markdown-i18n toolkit's diff/structure engine.

Documents, lines and messages are modelled as `List Char`; a JS string
`s.split('\n')` becomes `splitOnNl`, `a.join('\n')` becomes `joinNl`.
Each definition embeds one function of the repository's scripts
(`scripts/update-plan.js`, `scripts/diff-sections.js`, `scripts/validate.js`);
the doc comment of each names its source.
-/

namespace MdI18n

/-- Converts a Lean string literal to the `List Char` document model. -/
def str (s : String) : List Char := s.data

/-- Whitespace class of the JS `\s` regex escape and `String.prototype.trim`
(ASCII whitespace and no-break space). -/
def isJsSpace (c : Char) : Bool :=
  c = ' ' || c = '\t' || c = '\n' || c = '\r' || c = '\x0b' || c = '\x0c' || c = '\u00A0'

/-- Characters matched by the JS regex `.` (anything but a line terminator). -/
def isDotChar (c : Char) : Bool :=
  !(c = '\n' || c = '\r' || c = '\u2028' || c = '\u2029')

/-- Embeds `String.prototype.trim`. -/
def jsTrim (s : List Char) : List Char :=
  ((s.dropWhile isJsSpace).reverse.dropWhile isJsSpace).reverse

/-- Embeds `content.split('\n')`. -/
def splitOnNl : List Char → List (List Char)
  | [] => [[]]
  | c :: cs =>
    if c = '\n' then [] :: splitOnNl cs
    else
      match splitOnNl cs with
      | [] => [[c]]
      | l :: ls => (c :: l) :: ls

/-- Embeds `lines.join('\n')`. -/
def joinNl : List (List Char) → List Char
  | [] => []
  | [x] => x
  | x :: xs => x ++ '\n' :: joinNl xs

/-- Embeds `line.startsWith(p)` on the `List Char` model. -/
def startsWith : List Char → List Char → Bool
  | _, [] => true
  | [], _ :: _ => false
  | c :: cs, p :: ps => c == p && startsWith cs ps

/-- Matcher for the suffix `\s+(.+)$` of the heading and list-item regexes:
a greedy nonempty run of whitespace, then a nonempty capture of characters
the JS `.` accepts, reaching the end of the line.  When the rest of the line
is all whitespace, the greedy `\s+` backtracks one character so `.+` can
capture the final whitespace character, provided it is not a line
terminator. -/
def tailCapture (rest : List Char) : Option (List Char) :=
  let ws := rest.takeWhile isJsSpace
  let tl := rest.drop ws.length
  if ws.isEmpty then none
  else if !tl.isEmpty then
    if tl.all isDotChar then some tl else none
  else if 2 ≤ ws.length then
    match rest.getLast? with
    | some c => if isDotChar c then some [c] else none
    | none => none
  else none

/-- Embeds the heading regex `/^(#{1,6})\s+(.+)$/` shared by
`parseMarkdownSections`, `extractSections` and `extractStructure`: returns
the matched hash run and the heading text. -/
def headingMatch (line : List Char) : Option (List Char × List Char) :=
  let hashes := line.takeWhile (· = '#')
  if hashes.isEmpty || 6 < hashes.length then none
  else
    match tailCapture (line.drop hashes.length) with
    | some title => some (hashes, title)
    | none => none

/-- Embeds the list-item regex `/^[-*]\s+(.+)$/` of `extractStructure`. -/
def listItemMatch (line : List Char) : Option (List Char) :=
  match line with
  | c :: rest => if c = '-' || c = '*' then tailCapture rest else none
  | [] => none

/-- One hunk of a unified diff, as built by `parseGitDiffDetailed`
(scripts/update-plan.js lines 164-174). -/
structure DiffHunk where
  old_start : Int
  old_count : Int
  new_start : Int
  new_count : Int
  deleted_lines : List (List Char)
  added_lines : List (List Char)
  context_lines : List (List Char)
  header : List Char
deriving DecidableEq

/-- A hunk together with its classification, as returned by
`analyzeHunkOperation` (scripts/update-plan.js lines 238-243). -/
structure ClassifiedHunk extends DiffHunk where
  operation : List Char
  description : List Char
  line_range : List Char
deriving DecidableEq

/-- A maximal nonempty run of digits (`\d+`), with its numeric value and the
rest of the line. -/
def digitsRun? (s : List Char) : Option (Nat × List Char) :=
  let ds := s.takeWhile Char.isDigit
  if ds.isEmpty then none
  else some (ds.foldl (fun a c => 10 * a + (c.toNat - '0'.toNat)) 0, s.drop ds.length)

/-- The optional group `(?:,(\d+))?` of the hunk-header regex. -/
def optCount (s : List Char) : Option Nat × List Char :=
  match s with
  | ',' :: rest =>
    match digitsRun? rest with
    | some (n, r) => (some n, r)
    | none => (none, ',' :: rest)
  | _ => (none, s)

/-- Embeds the hunk-header regex
`/^@@ -(\d+)(?:,(\d+))? \+(\d+)(?:,(\d+))? @@/` of `parseGitDiffDetailed`:
the four captures (counts optional). -/
def matchHunkHeader (line : List Char) : Option (Nat × Option Nat × Nat × Option Nat) :=
  match line with
  | '@' :: '@' :: ' ' :: '-' :: r0 =>
    match digitsRun? r0 with
    | some (o, r1) =>
      match optCount r1 with
      | (oc, r2) =>
        match r2 with
        | ' ' :: '+' :: r3 =>
          match digitsRun? r3 with
          | some (n, r4) =>
            match optCount r4 with
            | (nc, r5) =>
              match r5 with
              | ' ' :: '@' :: '@' :: _ => some (o, oc, n, nc)
              | _ => none
          | none => none
        | _ => none
    | none => none
  | _ => none

/-- The literal `'\ No newline at end of file'` marker recognized by the
parser. -/
def noNewlineMarker : List Char := str "\\ No newline at end of file"

/-- Embeds the line scan of `parseGitDiffDetailed`
(scripts/update-plan.js lines 153-207): `currentHunk` and `inHunk` are the
loop's mutable state, and hunks are emitted in order. -/
def parseLoop : List (List Char) → Option DiffHunk → Bool → List DiffHunk
  | [], currentHunk, inHunk =>
    match currentHunk, inHunk with
    | some h, true => [h]
    | _, _ => []
  | line :: rest, currentHunk, inHunk =>
    match matchHunkHeader line with
    | some (o, oc, n, nc) =>
      (match currentHunk, inHunk with
       | some h, true => [h]
       | _, _ => []) ++
      parseLoop rest
        (some { old_start := (o : Int), old_count := ((oc.getD 1 : Nat) : Int),
                new_start := (n : Int), new_count := ((nc.getD 1 : Nat) : Int),
                deleted_lines := [], added_lines := [], context_lines := [],
                header := line }) true
    | none =>
      match currentHunk, inHunk with
      | some h, true =>
        if startsWith line (str "-") then
          parseLoop rest (some { h with deleted_lines := h.deleted_lines ++ [line.drop 1] }) true
        else if startsWith line (str "+") then
          parseLoop rest (some { h with added_lines := h.added_lines ++ [line.drop 1] }) true
        else if startsWith line (str " ") then
          parseLoop rest (some { h with context_lines := h.context_lines ++ [line.drop 1] }) true
        else if line = noNewlineMarker then
          parseLoop rest (some h) true
        else if startsWith line (str "@@") || startsWith line (str "diff") ||
            startsWith line (str "index") || startsWith line (str "---") ||
            startsWith line (str "+++") then
          h :: parseLoop rest none false
        else
          parseLoop rest (some h) true
      | c, b => parseLoop rest c b

/-- Embeds the comparison loop of `checkWhitespaceOnlyChanges`
(scripts/update-plan.js lines 254-263). -/
def wsLoop : List (List Char) → List (List Char) → Bool
  | d :: ds, a :: as_ => if jsTrim d ≠ jsTrim a then false else wsLoop ds as_
  | _, _ => true

/-- Embeds `checkWhitespaceOnlyChanges` (scripts/update-plan.js lines
249-265). -/
def checkWhitespaceOnlyChanges (hunk : DiffHunk) : Bool :=
  if hunk.deleted_lines.length ≠ hunk.added_lines.length then false
  else wsLoop hunk.deleted_lines hunk.added_lines

/-- Decimal rendering of a `Nat`, as JS template interpolation prints it. -/
def natRepr (n : Nat) : List Char := (toString n).data

/-- Decimal rendering of an `Int`, as JS template interpolation prints it. -/
def intRepr (n : Int) : List Char := (toString n).data

/-- Embeds `analyzeHunkOperation` (scripts/update-plan.js lines 216-244). -/
def analyzeHunkOperation (hunk : DiffHunk) : ClassifiedHunk :=
  let hasDeleted := decide (0 < hunk.deleted_lines.length)
  let hasAdded := decide (0 < hunk.added_lines.length)
  let hasOnlyWhitespaceChanges := checkWhitespaceOnlyChanges hunk
  let od : List Char × List Char :=
    if !hasDeleted && hasAdded then
      (str "add", str "Add " ++ natRepr hunk.added_lines.length ++ str " line(s)")
    else if hasDeleted && !hasAdded then
      (str "delete", str "Delete " ++ natRepr hunk.deleted_lines.length ++ str " line(s)")
    else if hasOnlyWhitespaceChanges then
      (str "format", str "Format/whitespace change")
    else if hasDeleted && hasAdded then
      (str "modify", str "Replace " ++ natRepr hunk.deleted_lines.length ++
        str " line(s) with " ++ natRepr hunk.added_lines.length ++ str " line(s)")
    else
      (str "modify", str "Content modified")
  { toDiffHunk := hunk, operation := od.1, description := od.2,
    line_range := str "Lines " ++ intRepr hunk.new_start ++ str "-" ++
      intRepr (hunk.new_start + hunk.new_count - 1) }

/-- Embeds `parseGitDiffDetailed` (scripts/update-plan.js lines 147-211). -/
def parseGitDiffDetailed (diffOutput : List Char) : List ClassifiedHunk :=
  (parseLoop (splitOnNl diffOutput) none false).map analyzeHunkOperation

/-- One section produced by `parseMarkdownSections`
(scripts/update-plan.js lines 289-323).  `endLine` is the source's `end`
field. -/
structure MarkdownSection where
  title : List Char
  level : Nat
  start : Nat
  endLine : Nat
  content : List Char
deriving DecidableEq

/-- The in-progress section of `parseMarkdownSections` before its `end` and
`content` are set. -/
structure CurSection where
  title : List Char
  level : Nat
  start : Nat
deriving DecidableEq

/-- Embeds the loop of `parseMarkdownSections`: `i` is the line index and
`curLines` carries the slice `lines.slice(cur.start, i)` that the source
recomputes when it closes a section. -/
def sectionsGo : List (List Char) → Nat → CurSection → List (List Char) → List MarkdownSection
  | [], i, cur, curLines =>
    if cur.start < i then
      [{ title := cur.title, level := cur.level, start := cur.start,
         endLine := i - 1, content := joinNl curLines }]
    else []
  | line :: rest, i, cur, curLines =>
    match headingMatch line with
    | some (hashes, title) =>
      (if cur.start < i then
        [{ title := cur.title, level := cur.level, start := cur.start,
           endLine := i - 1, content := joinNl curLines }]
       else []) ++
      sectionsGo rest (i + 1) { title := title, level := hashes.length, start := i } [line]
    | none => sectionsGo rest (i + 1) cur (curLines ++ [line])

/-- Embeds `parseMarkdownSections` (scripts/update-plan.js lines 289-323). -/
def parseMarkdownSections (content : List Char) : List MarkdownSection :=
  sectionsGo (splitOnNl content) 0 { title := str "(untitled)", level := 0, start := 0 } []

/-- A hunk as `findAffectedSections` consumes it: the source guards against
records missing `new_start` (scripts/update-plan.js line 333) and reads
`operation` through `h.operation || 'unknown'`, so both are optional. -/
structure SecHunk where
  new_start : Option Int
  operation : Option (List Char)
deriving DecidableEq

/-- One entry of the result of `findAffectedSections`
(scripts/update-plan.js lines 357-362). -/
structure AffectedSection where
  section_title : List Char
  hunks : List SecHunk
  operation_types : List (List Char)
  total_changes : Nat
deriving DecidableEq

/-- Embeds the overlap test of `findAffectedSections`
(scripts/update-plan.js line 340):
`hunk.new_start >= section.start && hunk.new_start <= section.end + 1`. -/
def inSection (n : Int) (s : MarkdownSection) : Bool :=
  (s.start : Int) ≤ n && n ≤ (s.endLine : Int) + 1

/-- Embeds the `affected` JS `Map` update: push onto the existing entry for
the title, else append a fresh entry (insertion order preserved). -/
def addToAffected (m : List (List Char × List SecHunk)) (title : List Char) (h : SecHunk) :
    List (List Char × List SecHunk) :=
  match m with
  | [] => [(title, [h])]
  | (t, hs) :: rest =>
    if t = title then (t, hs ++ [h]) :: rest else (t, hs) :: addToAffected rest title h

/-- Embeds the hunk loop of `findAffectedSections`
(scripts/update-plan.js lines 331-348): a hunk without `new_start` is
skipped, otherwise it joins the entry of the first section whose range
contains it. -/
def buildAffected (sections : List MarkdownSection)
    (acc : List (List Char × List SecHunk)) :
    List SecHunk → List (List Char × List SecHunk)
  | [] => acc
  | h :: rest =>
    match h.new_start with
    | none => buildAffected sections acc rest
    | some n =>
      match sections.find? (fun s => inSection n s) with
      | some s => buildAffected sections (addToAffected acc s.title h) rest
      | none => buildAffected sections acc rest

/-- Embeds the JS first-occurrence dedup
`filter((op, index, self) => self.indexOf(op) === index)`. -/
def firstDedupGo (seen : List (List Char)) : List (List Char) → List (List Char)
  | [] => []
  | x :: xs =>
    if x ∈ seen then firstDedupGo seen xs else x :: firstDedupGo (seen ++ [x]) xs

/-- First-occurrence dedup of a list of strings. -/
def firstDedup (l : List (List Char)) : List (List Char) := firstDedupGo [] l

/-- Embeds `h.operation || 'unknown'` (scripts/update-plan.js line 354): a
missing operation, or the falsy empty string, yields `'unknown'`. -/
def opOf (h : SecHunk) : List Char :=
  match h.operation with
  | some op => if op = [] then str "unknown" else op
  | none => str "unknown"

/-- Embeds `findAffectedSections` (scripts/update-plan.js lines 328-364). -/
def findAffectedSections (hunks : List SecHunk) (sections : List MarkdownSection) :
    List AffectedSection :=
  (buildAffected sections [] hunks).map fun p =>
    { section_title := p.1
      hunks := p.2
      operation_types := firstDedup (p.2.map opOf)
      total_changes := p.2.length }

/-- The attribution key of a hunk: the title of the first section, in
document order, whose inclusive range extended by the one-past-end tolerance
contains the hunk's `new_start`; `none` when the hunk has no `new_start` or
no section matches. -/
def hunkKey (sections : List MarkdownSection) (h : SecHunk) : Option (List Char) :=
  match h.new_start with
  | none => none
  | some n => (sections.find? (fun s => inSection n s)).map MarkdownSection.title

/-- Association lookup used to state the loop invariant of `buildAffected`.  -/
def lookupT (t : List Char) : List (List Char × List SecHunk) → Option (List SecHunk)
  | [] => none
  | (k, v) :: rest => if t = k then some v else lookupT t rest

/-- The per-title hunk filter the attribution loop materializes. -/
def keyFilter (sections : List MarkdownSection) (hunks : List SecHunk) (t : List Char) :
    List SecHunk :=
  hunks.filter fun h => decide (hunkKey sections h = some t)

/-- Classification rule transcribed from the claim's wording: `add` when
`deletedLines` is empty and `addedLines` non-empty; `delete` when
`addedLines` is empty and `deletedLines` non-empty; `format` when the two
lists have equal length and are line-for-line equal after trimming;
otherwise `modify`. -/
def claimOperation (h : DiffHunk) : List Char :=
  if h.deleted_lines = [] ∧ h.added_lines ≠ [] then str "add"
  else if h.added_lines = [] ∧ h.deleted_lines ≠ [] then str "delete"
  else if h.deleted_lines.length = h.added_lines.length ∧
      (∀ i < h.deleted_lines.length,
        jsTrim (h.deleted_lines.getD i []) = jsTrim (h.added_lines.getD i [])) then
    str "format"
  else str "modify"

/-- One markdown inline link as `extractLinks` returns it
(scripts/validate.js). -/
structure Link where
  text : List Char
  url : List Char
deriving DecidableEq

/-- Attempt of the link regex `/\[([^\]]+)\]\(([^)]+)\)/` at the head of the
input: the captures and the input left after the match. -/
def tryLinkAt (s : List Char) : Option (Link × List Char) :=
  match s with
  | '[' :: rest =>
    let text := rest.takeWhile (· ≠ ']')
    if text.isEmpty then none
    else
      match rest.drop text.length with
      | ']' :: '(' :: rest2 =>
        let url := rest2.takeWhile (· ≠ ')')
        if url.isEmpty then none
        else
          match rest2.drop url.length with
          | ')' :: rest3 => some ({ text := text, url := url }, rest3)
          | _ => none
      | _ => none
  | _ => none

/-- Global scan of the link regex; the fuel argument bounds the scan and any
fuel of at least the input length is enough. -/
def scanLinksGo : Nat → List Char → List Link
  | 0, _ => []
  | _, [] => []
  | Nat.succ fuel, c :: rest =>
    match tryLinkAt (c :: rest) with
    | some (lnk, rest3) => lnk :: scanLinksGo fuel rest3
    | none => scanLinksGo fuel rest

/-- Embeds `extractLinks` (scripts/validate.js):
`content.matchAll(/\[([^\]]+)\]\(([^)]+)\)/g)`. -/
def extractLinks (content : List Char) : List Link :=
  scanLinksGo content.length content

/-- Embeds `isInternalLink` (scripts/validate.js). -/
def isInternalLink (url : List Char) : Bool :=
  if !startsWith url (str "/") then false
  else if startsWith url (str "http://") || startsWith url (str "https://") then false
  else true

/-- Embeds `isExternalLink` (scripts/validate.js). -/
def isExternalLink (url : List Char) : Bool :=
  startsWith url (str "http://") || startsWith url (str "https://")

/-- Embeds the test `url.match(/^\/[a-z]{2}\//)` of
`validateLinkLocalization`. -/
def twoLetterSlash (url : List Char) : Bool :=
  match url with
  | '/' :: a :: b :: '/' :: _ =>
    ('a' ≤ a && a ≤ 'z') && ('a' ≤ b && b ≤ 'z')
  | _ => false

/-- Embeds `validateLinkLocalization` (scripts/validate.js lines 75-137):
the first block is the loop over target links, the second the loop over
source links; each loop iteration contributes its pushed warnings in
order. -/
def validateLinkLocalization (sourceLinks targetLinks : List Link)
    (sourceLocale targetLocale : Option (List Char)) : List (List Char) :=
  (targetLinks.flatMap fun tgtLink =>
    let url := tgtLink.url
    if isInternalLink url then
      match targetLocale with
      | some tl =>
        let hasLocale := startsWith url ('/' :: tl ++ ['/']) ||
          startsWith url ('/' :: tl ++ ['?'])
        if (match sourceLocale with
            | some sl => startsWith url ('/' :: sl ++ ['/'])
            | none => false) then
          [str "Link still uses source locale: \"" ++ url ++ str "\" (should use /" ++
            tl ++ str "/)"]
        else if !hasLocale && !twoLetterSlash url then
          [str "Internal link missing locale prefix: \"" ++ url ++ str "\" (should be /" ++
            tl ++ url ++ str ")"]
        else []
      | none => []
    else if isExternalLink url then
      if sourceLinks.any (fun l => l.url == url) then []
      else
        [str "External link in target not in source: \"" ++ url ++
          str "\" (verify if correct)"]
    else []) ++
  (sourceLinks.flatMap fun srcLink =>
    let url := srcLink.url
    if isInternalLink url then
      match sourceLocale, targetLocale with
      | some sl, some tl =>
        let expectedTargetUrl :=
          if startsWith url ('/' :: sl ++ ['/']) then
            ('/' :: tl ++ ['/']) ++ url.drop (sl.length + 2)
          else if !twoLetterSlash url then ('/' :: tl) ++ url
          else url
        if targetLinks.any (fun t => t.url == expectedTargetUrl) then []
        else
          [str "Missing localized link in target: source=\"" ++ url ++
            str "\" → expected target=\"" ++ expectedTargetUrl ++ str "\""]
      | _, _ => []
    else [])

/-- Word characters of the `\w*` language tag in the code-fence regex. -/
def isWordChar (c : Char) : Bool :=
  ('a' ≤ c && c ≤ 'z') || ('A' ≤ c && c ≤ 'Z') || ('0' ≤ c && c ≤ '9') || c = '_'

/-- Lazy search for the closing triple backtick: the body up to the first
fence and the input after it. -/
def findFence : List Char → Option (List Char × List Char)
  | '`' :: '`' :: '`' :: rest => some ([], rest)
  | c :: rest => (findFence rest).map (fun p => (c :: p.1, p.2))
  | [] => none

/-- Attempt of the code-block regex ```` /```(\w*)\n([\s\S]*?)```/ ```` at the
head of the input. -/
def tryCodeBlockAt (s : List Char) : Option ((List Char × List Char) × List Char) :=
  match s with
  | '`' :: '`' :: '`' :: rest =>
    let lang := rest.takeWhile isWordChar
    (match rest.drop lang.length with
     | '\n' :: rest2 =>
       match findFence rest2 with
       | some (body, rest3) => some ((lang, body), rest3)
       | none => none
     | _ => none)
  | _ => none

/-- Global scan of the code-block regex, fueled like `scanLinksGo`. -/
def scanCodeBlocksGo : Nat → List Char → List (List Char × List Char)
  | 0, _ => []
  | _, [] => []
  | Nat.succ fuel, c :: rest =>
    match tryCodeBlockAt (c :: rest) with
    | some (pair, rest3) => pair :: scanCodeBlocksGo fuel rest3
    | none => scanCodeBlocksGo fuel rest

/-- Embeds the `codeBlocks` extraction of `extractStructure`
(scripts/validate.js): `content.matchAll(/```(\w*)\n([\s\S]*?)```/g)`. -/
def extractCodeBlocks (content : List Char) : List (List Char × List Char) :=
  scanCodeBlocksGo content.length content

/-- Lazy search for the `\n---` closing the frontmatter block: the body up
to it. -/
def fmClose : List Char → Option (List Char)
  | '\n' :: '-' :: '-' :: '-' :: _ => some []
  | c :: rest => (fmClose rest).map (c :: ·)
  | [] => none

/-- Embeds the frontmatter regex of `extractFrontmatterKeys`
(scripts/validate.js): anchored `^---` and a newline, then the lazily
captured block body, then a newline and `---`. -/
def fmBody? : List Char → Option (List Char)
  | '-' :: '-' :: '-' :: '\n' :: rest => fmClose rest
  | _ => none

/-- Embeds the per-line key extraction of `extractFrontmatterKeys`: the text
before the first colon, trimmed, when the colon index is positive. -/
def keyOfLine (line : List Char) : Option (List Char) :=
  match line.findIdx? (· = ':') with
  | some i => if 0 < i then some (jsTrim (line.take i)) else none
  | none => none

/-- Embeds `extractFrontmatterKeys` (scripts/validate.js): the keys of the
frontmatter block in first-insertion order, each once (the source collects
them as JS object properties). -/
def extractFrontmatterKeys (content : List Char) : List (List Char) :=
  match fmBody? content with
  | none => []
  | some body => firstDedup ((splitOnNl body).filterMap keyOfLine)

/-- The structural fingerprint returned by `extractStructure`
(scripts/validate.js lines 139-147).  A heading is its `(hashes, text)`
captures; a code block its `(language, body)` captures. -/
structure DocStructure where
  headings : List (List Char × List Char)
  codeBlocks : List (List Char × List Char)
  links : List Link
  listItems : List (List Char)
  frontmatter : List (List Char)
deriving DecidableEq

/-- Embeds `extractStructure` (scripts/validate.js lines 139-147). -/
def extractStructure (content : List Char) : DocStructure :=
  { headings := (splitOnNl content).filterMap headingMatch
    codeBlocks := extractCodeBlocks content
    links := extractLinks content
    listItems := (splitOnNl content).filterMap listItemMatch
    frontmatter := extractFrontmatterKeys content }

/-- Embeds the result object of `validatePair` (scripts/validate.js lines
224-232). -/
structure ValidationResult where
  passed : Bool
  errors : List (List Char)
  warnings : List (List Char)
  localeInfo : Option (List Char) × Option (List Char)
deriving DecidableEq

/-- Embeds `list.join(', ')`. -/
def joinCommaSp : List (List Char) → List Char
  | [] => []
  | [x] => x
  | x :: xs => x ++ ',' :: ' ' :: joinCommaSp xs

/-- Embeds the heading-count check of `validatePair` (scripts/validate.js
lines 172-174). -/
def headingErrors (src tgt : DocStructure) : List (List Char) :=
  if src.headings.length ≠ tgt.headings.length then
    [str "Heading count mismatch: source=" ++ natRepr src.headings.length ++
      str ", target=" ++ natRepr tgt.headings.length]
  else []

/-- Embeds the per-block comparison loop of `validatePair`
(scripts/validate.js lines 180-191), entered when the counts match. -/
def codeBlockPairErrors : Nat → List (List Char × List Char) →
    List (List Char × List Char) → List (List Char)
  | i, (srcLang, srcCode) :: srcRest, (tgtLang, tgtCode) :: tgtRest =>
    (if srcLang ≠ tgtLang then
      [str "Code block " ++ natRepr (i + 1) ++ str " language mismatch: source='" ++
        srcLang ++ str "', target='" ++ tgtLang ++ str "'"]
     else []) ++
    (if jsTrim srcCode ≠ jsTrim tgtCode then
      [str "Code block " ++ natRepr (i + 1) ++ str " content changed (should be identical)"]
     else []) ++
    codeBlockPairErrors (i + 1) srcRest tgtRest
  | _, _, _ => []

/-- Embeds the code-block checks of `validatePair` (scripts/validate.js
lines 177-192). -/
def codeErrors (src tgt : DocStructure) : List (List Char) :=
  if src.codeBlocks.length ≠ tgt.codeBlocks.length then
    [str "Code block count mismatch: source=" ++ natRepr src.codeBlocks.length ++
      str ", target=" ++ natRepr tgt.codeBlocks.length]
  else codeBlockPairErrors 0 src.codeBlocks tgt.codeBlocks

/-- Embeds the link-count check of `validatePair` (scripts/validate.js lines
195-197). -/
def linkCountWarnings (src tgt : DocStructure) : List (List Char) :=
  if src.links.length ≠ tgt.links.length then
    [str "Link count mismatch: source=" ++ natRepr src.links.length ++
      str ", target=" ++ natRepr tgt.links.length]
  else []

/-- Embeds the guarded call to `validateLinkLocalization`
(scripts/validate.js lines 200-203). -/
def localizationWarnings (src tgt : DocStructure)
    (sourceLocale targetLocale : Option (List Char)) : List (List Char) :=
  if sourceLocale.isSome || targetLocale.isSome then
    validateLinkLocalization src.links tgt.links sourceLocale targetLocale
  else []

/-- Embeds `missing` of `validatePair` (scripts/validate.js line 209). -/
def missingKeys (src tgt : DocStructure) : List (List Char) :=
  src.frontmatter.filter fun k => !decide (k ∈ tgt.frontmatter)

/-- Embeds `extra` of `validatePair` (scripts/validate.js line 210). -/
def extraKeys (src tgt : DocStructure) : List (List Char) :=
  tgt.frontmatter.filter fun k => !decide (k ∈ src.frontmatter)

/-- Embeds the frontmatter error push of `validatePair`
(scripts/validate.js lines 212-214). -/
def fmMissingErrors (src tgt : DocStructure) : List (List Char) :=
  if missingKeys src tgt ≠ [] then
    [str "Missing frontmatter keys: " ++ joinCommaSp (missingKeys src tgt)]
  else []

/-- Embeds the frontmatter warning push of `validatePair`
(scripts/validate.js lines 215-217). -/
def fmExtraWarnings (src tgt : DocStructure) : List (List Char) :=
  if extraKeys src tgt ≠ [] then
    [str "Extra frontmatter keys: " ++ joinCommaSp (extraKeys src tgt)]
  else []

/-- Embeds the list-item count check of `validatePair`
(scripts/validate.js lines 220-222). -/
def listItemWarnings (src tgt : DocStructure) : List (List Char) :=
  if 2 < ((src.listItems.length : Int) - (tgt.listItems.length : Int)).natAbs then
    [str "List item count differs significantly: source=" ++
      natRepr src.listItems.length ++ str ", target=" ++ natRepr tgt.listItems.length]
  else []

/-- Embeds `validatePair` (scripts/validate.js lines 164-233): the error and
warning lists concatenate the pushes in source order, and `passed` is
`errors.length === 0`. -/
def validatePair (source target : List Char)
    (sourceLocale targetLocale : Option (List Char)) : ValidationResult :=
  let src := extractStructure source
  let tgt := extractStructure target
  let errors := headingErrors src tgt ++ codeErrors src tgt ++ fmMissingErrors src tgt
  let warnings := linkCountWarnings src tgt ++
    localizationWarnings src tgt sourceLocale targetLocale ++
    fmExtraWarnings src tgt ++ listItemWarnings src tgt
  { passed := errors.isEmpty
    errors := errors
    warnings := warnings
    localeInfo := (sourceLocale, targetLocale) }

/-- Embeds the JS object property write `sections[key] = value` of
`extractSections` (scripts/diff-sections.js): replace the value of an
existing key in place, else append the key (property insertion order). -/
def objSet (m : List (List Char × List Char)) (k v : List Char) :
    List (List Char × List Char) :=
  match m with
  | [] => [(k, v)]
  | (k₁, v₁) :: rest =>
    if k₁ = k then (k₁, v) :: rest else (k₁, v₁) :: objSet rest k v

/-- JS object property read, with the object's insertion-ordered entries as
an association list. -/
def objGet (k : List Char) : List (List Char × List Char) → Option (List Char)
  | [] => none
  | (k₁, v₁) :: rest => if k = k₁ then some v₁ else objGet k rest

/-- Embeds the loop of `extractSections` (scripts/diff-sections.js lines
14-40): `curKey` and `curContent` are the `currentHeading` and
`currentContent` accumulators; a heading closes the running section under
its key and opens a new one keyed "hashes, a space, then the title". -/
def extractGo (m : List (List Char × List Char)) (curKey : List Char)
    (curContent : List (List Char)) : List (List Char) → List (List Char × List Char)
  | [] => objSet m curKey (joinNl curContent)
  | line :: rest =>
    match headingMatch line with
    | some (hashes, title) =>
      extractGo (objSet m curKey (joinNl curContent)) (hashes ++ ' ' :: title) [line] rest
    | none => extractGo m curKey (curContent ++ [line]) rest

/-- Embeds `extractSections` (scripts/diff-sections.js lines 14-40). -/
def extractSections (content : List Char) : List (List Char × List Char) :=
  extractGo [] (str "__intro__") [] (splitOnNl content)

/-- Embeds the report object of `compareSections`
(scripts/diff-sections.js lines 49-54). -/
structure SectionChangeReport where
  added : List (List Char)
  removed : List (List Char)
  modified : List (List Char)
  unchanged : List (List Char)
deriving DecidableEq

/-- Embeds the common-key loop of `compareSections`
(scripts/diff-sections.js lines 56-64): walks the old keys and sorts those
present in the new document into `(modified, unchanged)` by trimmed-content
comparison. -/
def classifyCommon (os ns : List (List Char × List Char)) :
    List (List Char) → List (List Char) × List (List Char)
  | [] => ([], [])
  | k :: rest =>
    let mu := classifyCommon os ns rest
    if k ∈ ns.map Prod.fst then
      if jsTrim ((objGet k os).getD []) ≠ jsTrim ((objGet k ns).getD []) then
        (k :: mu.1, mu.2)
      else (mu.1, k :: mu.2)
    else mu

/-- Embeds `compareSections` (scripts/diff-sections.js lines 42-67). -/
def compareSections (oldContent newContent : List Char) : SectionChangeReport :=
  let oldSections := extractSections oldContent
  let newSections := extractSections newContent
  let oldKeys := oldSections.map Prod.fst
  let newKeys := newSections.map Prod.fst
  let mu := classifyCommon oldSections newSections oldKeys
  { added := newKeys.filter fun k => !decide (k ∈ oldKeys)
    removed := oldKeys.filter fun k => !decide (k ∈ newKeys)
    modified := mu.1
    unchanged := mu.2 }

/-- The document used to exhibit locale warnings on an identical pair. -/
def localeDemoDoc : List Char := str "[guide](/en/install)"

/-- A diff whose hunk is followed by old-file and new-file marker lines. -/
def markerDemoDiff : List Char := str "@@ -1 +1 @@\n--- a/guide.md\n+++ b/guide.md"

theorem splitOnNl_ne_nil (s : List Char) : splitOnNl s ≠ [] := by
  cases s with
  | nil => simp [splitOnNl]
  | cons c cs =>
    simp only [splitOnNl]
    split
    · simp
    · split <;> simp

theorem joinNl_cons (x : List Char) (xs : List (List Char)) (h : xs ≠ []) :
    joinNl (x :: xs) = x ++ '\n' :: joinNl xs := by
  cases xs with
  | nil => exact absurd rfl h
  | cons y ys => rfl

theorem joinNl_splitOnNl (s : List Char) : joinNl (splitOnNl s) = s := by
  induction s with
  | nil => rfl
  | cons c cs ih =>
    simp only [splitOnNl]
    by_cases hc : c = '\n'
    · rw [if_pos hc, joinNl_cons _ _ (splitOnNl_ne_nil cs), ih, hc]
      rfl
    · rw [if_neg hc]
      cases hsplit : splitOnNl cs with
      | nil => exact absurd hsplit (splitOnNl_ne_nil cs)
      | cons l ls =>
        cases ls with
        | nil =>
          rw [hsplit] at ih
          simpa [joinNl] using congrArg (c :: ·) ih
        | cons m ms =>
          rw [hsplit, joinNl_cons _ _ (by simp)] at ih
          rw [joinNl_cons _ _ (by simp), List.cons_append, ih]

theorem joinNl_append (xs ys : List (List Char)) (hx : xs ≠ []) (hy : ys ≠ []) :
    joinNl (xs ++ ys) = joinNl xs ++ '\n' :: joinNl ys := by
  induction xs with
  | nil => exact absurd rfl hx
  | cons x xs ih =>
    cases xs with
    | nil => simpa using joinNl_cons x ys hy
    | cons x' xs' =>
      rw [List.cons_append, joinNl_cons _ _ (by simp), joinNl_cons _ _ (by simp),
        ih (by simp)]
      simp

theorem sectionsGo_ne_nil (rest : List (List Char)) :
    ∀ (i : Nat) (cur : CurSection) (curLines : List (List Char)),
      cur.start < i → sectionsGo rest i cur curLines ≠ [] := by
  induction rest with
  | nil =>
    intro i cur curLines h
    simp [sectionsGo, if_pos h]
  | cons line rest ih =>
    intro i cur curLines h
    cases hm : headingMatch line with
    | some p =>
      obtain ⟨hashes, title⟩ := p
      simp [sectionsGo, hm, if_pos h]
    | none =>
      simp only [sectionsGo, hm]
      exact ih (i + 1) cur (curLines ++ [line]) (Nat.lt_succ_of_lt h)

theorem sectionsGo_content (rest : List (List Char)) :
    ∀ (i : Nat) (cur : CurSection) (curLines : List (List Char)),
      cur.start ≤ i → (cur.start < i ↔ curLines ≠ []) →
      joinNl ((sectionsGo rest i cur curLines).map MarkdownSection.content) =
        joinNl (curLines ++ rest) := by
  induction rest with
  | nil =>
    intro i cur curLines hle hiff
    by_cases h : cur.start < i
    · simp only [sectionsGo, if_pos h, List.map_cons, List.map_nil, List.append_nil]
      rfl
    · have : curLines = [] := by
        by_contra hne
        exact h (hiff.mpr hne)
      simp [sectionsGo, if_neg h, this, joinNl]
  | cons line rest ih =>
    intro i cur curLines hle hiff
    cases hm : headingMatch line with
    | some p =>
      obtain ⟨hashes, title⟩ := p
      simp only [sectionsGo, hm]
      by_cases h : cur.start < i
      · have hcl : curLines ≠ [] := hiff.mp h
        have hrec :=
          ih (i + 1) { title := title, level := hashes.length, start := i } [line]
            (Nat.le_succ i) (by simp)
        have hne :
            sectionsGo rest (i + 1)
              { title := title, level := hashes.length, start := i } [line] ≠ [] :=
          sectionsGo_ne_nil rest (i + 1) _ [line] (Nat.lt_succ_self i)
        rw [if_pos h, List.singleton_append, List.map_cons,
          joinNl_cons _ _ (by simpa using hne), hrec]
        have : joinNl (curLines ++ line :: rest) =
            joinNl curLines ++ '\n' :: joinNl (line :: rest) :=
          joinNl_append curLines (line :: rest) hcl (by simp)
        simpa using this.symm
      · have hcl : curLines = [] := by
          by_contra hne
          exact h (hiff.mpr hne)
        have hrec :=
          ih (i + 1) { title := title, level := hashes.length, start := i } [line]
            (Nat.le_succ i) (by simp)
        rw [if_neg h, List.nil_append, hrec, hcl]
        simp
    | none =>
      have hrec := ih (i + 1) cur (curLines ++ [line]) (Nat.le_succ_of_le hle)
        (by
          constructor
          · intro _
            simp
          · intro _
            exact Nat.lt_succ_of_le hle)
      simp only [sectionsGo, hm]
      rw [hrec]
      simp

/-- The concatenation of the sections' contents, separated by newlines, is
the original document text. -/
theorem parseMarkdownSections_reassemble (doc : List Char) :
    joinNl ((parseMarkdownSections doc).map MarkdownSection.content) = doc := by
  have h := sectionsGo_content (splitOnNl doc) 0
    { title := str "(untitled)", level := 0, start := 0 } []
    (Nat.le_refl 0) (by simp)
  rw [parseMarkdownSections, h]
  simpa using joinNl_splitOnNl doc

theorem addToAffected_keys (m : List (List Char × List SecHunk)) (title : List Char)
    (h : SecHunk) :
    (addToAffected m title h).map Prod.fst =
      if title ∈ m.map Prod.fst then m.map Prod.fst else m.map Prod.fst ++ [title] := by
  induction m with
  | nil => simp [addToAffected]
  | cons p rest ih =>
    obtain ⟨t, hs⟩ := p
    by_cases ht : t = title
    · simp [addToAffected, ht]
    · simp only [addToAffected, if_neg ht, List.map_cons, ih]
      by_cases hmem : title ∈ rest.map Prod.fst <;>
        simp [hmem, Ne.symm ht]

theorem addToAffected_lookup (m : List (List Char × List SecHunk)) (title : List Char)
    (h : SecHunk) (t : List Char) :
    lookupT t (addToAffected m title h) =
      if t = title then some (((lookupT title m).getD []) ++ [h]) else lookupT t m := by
  induction m with
  | nil =>
    by_cases ht : t = title <;> simp [addToAffected, lookupT, ht]
  | cons p rest ih =>
    obtain ⟨t₁, hs₁⟩ := p
    by_cases h₁ : t₁ = title
    · subst h₁
      by_cases ht : t = t₁ <;> simp [addToAffected, lookupT, ht]
    · simp only [addToAffected, if_neg h₁]
      by_cases ht : t = t₁
      · subst ht
        simp [lookupT, h₁]
      · by_cases htt : t = title
        · subst htt
          simp [lookupT, ht, ih]
        · simp [lookupT, ht, htt, ih]

theorem lookupT_of_mem_nodup {l : List (List Char × List SecHunk)}
    (hnd : (l.map Prod.fst).Nodup) {t : List Char} {hs : List SecHunk}
    (hmem : (t, hs) ∈ l) : lookupT t l = some hs := by
  induction l with
  | nil => simp at hmem
  | cons p rest ih =>
    obtain ⟨t₁, hs₁⟩ := p
    simp only [List.map_cons, List.nodup_cons] at hnd
    rcases List.mem_cons.mp hmem with heq | hrest
    · rw [Prod.mk.injEq] at heq
      obtain ⟨rfl, rfl⟩ := heq
      simp [lookupT]
    · have ht : t ≠ t₁ := by
        rintro rfl
        exact hnd.1 (List.mem_map.mpr ⟨(t, hs), hrest, rfl⟩)
      simp [lookupT, ht, ih hnd.2 hrest]

theorem mem_of_lookupT {l : List (List Char × List SecHunk)} {t : List Char}
    {hs : List SecHunk} (h : lookupT t l = some hs) : (t, hs) ∈ l := by
  induction l with
  | nil => simp [lookupT] at h
  | cons p rest ih =>
    obtain ⟨t₁, hs₁⟩ := p
    by_cases ht : t = t₁
    · subst ht
      simp [lookupT] at h
      simp [h]
    · simp [lookupT, ht] at h
      exact List.mem_cons_of_mem _ (ih h)

theorem buildAffected_inv (sections : List MarkdownSection) :
    ∀ (hunks pre : List SecHunk) (acc : List (List Char × List SecHunk)),
      (acc.map Prod.fst).Nodup →
      (∀ t, lookupT t acc =
        (if keyFilter sections pre t = [] then none else some (keyFilter sections pre t))) →
      ((buildAffected sections acc hunks).map Prod.fst).Nodup ∧
      (∀ t, lookupT t (buildAffected sections acc hunks) =
        (if keyFilter sections (pre ++ hunks) t = [] then none
         else some (keyFilter sections (pre ++ hunks) t))) := by
  intro hunks
  induction hunks with
  | nil =>
    intro pre acc hnd hlk
    simpa [buildAffected] using ⟨hnd, hlk⟩
  | cons h rest ih =>
    intro pre acc hnd hlk
    have hsplit : pre ++ h :: rest = (pre ++ [h]) ++ rest := by simp
    cases hns : h.new_start with
    | none =>
      have hkey : hunkKey sections h = none := by simp [hunkKey, hns]
      have hf : ∀ t, keyFilter sections (pre ++ [h]) t = keyFilter sections pre t := by
        intro t
        simp [keyFilter, List.filter_append, hkey]
      have := ih (pre ++ [h]) acc hnd (by intro t; rw [hf t]; exact hlk t)
      rw [hsplit]
      simpa [buildAffected, hns] using this
    | some n =>
      cases hfind : sections.find? (fun s => inSection n s) with
      | none =>
        have hkey : hunkKey sections h = none := by simp [hunkKey, hns, hfind]
        have hf : ∀ t, keyFilter sections (pre ++ [h]) t = keyFilter sections pre t := by
          intro t
          simp [keyFilter, List.filter_append, hkey]
        have := ih (pre ++ [h]) acc hnd (by intro t; rw [hf t]; exact hlk t)
        rw [hsplit]
        simpa [buildAffected, hns, hfind] using this
      | some s =>
        have hkey : hunkKey sections h = some s.title := by
          simp [hunkKey, hns, hfind]
        have hnd' : ((addToAffected acc s.title h).map Prod.fst).Nodup := by
          rw [addToAffected_keys]
          split
          · exact hnd
          · next hnotmem => simp [List.nodup_append, hnd, hnotmem]
        have hlk' : ∀ t, lookupT t (addToAffected acc s.title h) =
            (if keyFilter sections (pre ++ [h]) t = [] then none
             else some (keyFilter sections (pre ++ [h]) t)) := by
          intro t
          rw [addToAffected_lookup]
          by_cases ht : t = s.title
          · have hfe : keyFilter sections (pre ++ [h]) s.title =
                keyFilter sections pre s.title ++ [h] := by
              simp [keyFilter, List.filter_append, hkey]
            have hgd : ((lookupT s.title acc).getD []) = keyFilter sections pre s.title := by
              rw [hlk s.title]
              split
              · next he => simp [he]
              · simp
            rw [if_pos ht, ht, hfe, hgd]
            simp
          · have hfe : keyFilter sections (pre ++ [h]) t = keyFilter sections pre t := by
              have : hunkKey sections h ≠ some t := by
                rw [hkey]
                simpa using fun hh => ht hh.symm
              simp [keyFilter, List.filter_append, this]
            rw [if_neg ht, hfe, hlk t]
        have := ih (pre ++ [h]) (addToAffected acc s.title h) hnd' hlk'
        rw [hsplit]
        simpa [buildAffected, hns, hfind] using this

theorem buildAffected_spec (sections : List MarkdownSection) (hunks : List SecHunk) :
    ((buildAffected sections [] hunks).map Prod.fst).Nodup ∧
    (∀ t, lookupT t (buildAffected sections [] hunks) =
      (if keyFilter sections hunks t = [] then none
       else some (keyFilter sections hunks t))) := by
  have := buildAffected_inv sections hunks [] []
    (by simp) (by intro t; simp [keyFilter, lookupT])
  simpa using this

theorem mem_buildAffected_iff (sections : List MarkdownSection) (hunks : List SecHunk)
    (t : List Char) (hs : List SecHunk) :
    ((t, hs) ∈ buildAffected sections [] hunks) ↔
      (keyFilter sections hunks t ≠ [] ∧ hs = keyFilter sections hunks t) := by
  obtain ⟨hnd, hlk⟩ := buildAffected_spec sections hunks
  constructor
  · intro hmem
    have h2 := (hlk t).symm.trans (lookupT_of_mem_nodup hnd hmem)
    by_cases hf : keyFilter sections hunks t = []
    · rw [if_pos hf] at h2
      exact absurd h2 (by simp)
    · rw [if_neg hf] at h2
      exact ⟨hf, (Option.some_inj.mp h2).symm⟩
  · rintro ⟨hf, rfl⟩
    apply mem_of_lookupT
    rw [hlk t, if_neg hf]

theorem parseLoop_length :
    ∀ (lines : List (List Char)) (cur : Option DiffHunk) (inHunk : Bool),
      (parseLoop lines cur inHunk).length =
        lines.countP (fun l => (matchHunkHeader l).isSome) +
          (match cur, inHunk with | some _, true => 1 | _, _ => 0) := by
  intro lines
  induction lines with
  | nil =>
    intro cur inHunk
    cases cur <;> cases inHunk <;> simp [parseLoop]
  | cons line rest ih =>
    intro cur inHunk
    cases hm : matchHunkHeader line with
    | some q =>
      obtain ⟨o, oc, n, nc⟩ := q
      cases cur <;> cases inHunk <;>
        simp [parseLoop, hm, ih, List.countP_cons]
    | none =>
      cases cur with
      | none => cases inHunk <;> simp [parseLoop, hm, ih, List.countP_cons]
      | some hcur =>
        cases inHunk with
        | false => simp [parseLoop, hm, ih, List.countP_cons]
        | true =>
          simp only [parseLoop, hm]
          split_ifs <;> simp [ih, List.countP_cons, hm]

theorem wsLoop_iff :
    ∀ ds as_ : List (List Char), wsLoop ds as_ = true ↔
      ∀ i < min ds.length as_.length, jsTrim (ds.getD i []) = jsTrim (as_.getD i []) := by
  intro ds
  induction ds with
  | nil =>
    intro as_
    simp [wsLoop]
  | cons d ds ih =>
    intro as_
    cases as_ with
    | nil => simp [wsLoop]
    | cons a as_ =>
      simp only [wsLoop]
      by_cases hd : jsTrim d = jsTrim a
      · rw [if_neg (by simpa using hd), ih as_]
        constructor
        · intro hall i hi
          cases i with
          | zero => simpa using hd
          | succ j =>
            simp only [List.getD_cons_succ]
            exact hall j (by
              rw [List.length_cons, List.length_cons, Nat.succ_min_succ] at hi
              omega)
        · intro hall i hi
          have := hall (i + 1) (by
            rw [List.length_cons, List.length_cons, Nat.succ_min_succ]
            omega)
          simpa using this
      · rw [if_pos hd]
        constructor
        · intro hfalse
          exact absurd hfalse (by simp)
        · intro hall
          have := hall 0 (by
            rw [List.length_cons, List.length_cons, Nat.succ_min_succ]
            omega)
          simp at this
          exact absurd this hd

theorem checkWhitespaceOnlyChanges_iff (h : DiffHunk) :
    checkWhitespaceOnlyChanges h = true ↔
      (h.deleted_lines.length = h.added_lines.length ∧
        ∀ i < h.deleted_lines.length,
          jsTrim (h.deleted_lines.getD i []) = jsTrim (h.added_lines.getD i [])) := by
  unfold checkWhitespaceOnlyChanges
  by_cases hl : h.deleted_lines.length = h.added_lines.length
  · rw [if_neg (by simpa using hl), wsLoop_iff]
    constructor
    · intro hall
      exact ⟨hl, fun i hi => hall i (by omega)⟩
    · intro hall i hi
      exact hall.2 i (by omega)
  · rw [if_pos (by simpa using hl)]
    constructor
    · intro hfalse
      exact absurd hfalse (by simp)
    · intro hall
      exact absurd hall.1 hl

theorem analyzeHunkOperation_operation (h : DiffHunk) :
    (analyzeHunkOperation h).operation =
      (if !decide (0 < h.deleted_lines.length) && decide (0 < h.added_lines.length) then
        str "add"
       else if decide (0 < h.deleted_lines.length) && !decide (0 < h.added_lines.length) then
        str "delete"
       else if checkWhitespaceOnlyChanges h then str "format"
       else if decide (0 < h.deleted_lines.length) && decide (0 < h.added_lines.length) then
        str "modify"
       else str "modify") := by
  simp only [analyzeHunkOperation]
  split_ifs <;> rfl

theorem operation_eq_claimOperation (h : DiffHunk) :
    (analyzeHunkOperation h).operation = claimOperation h := by
  rw [analyzeHunkOperation_operation, claimOperation]
  by_cases hd : h.deleted_lines = [] <;> by_cases ha : h.added_lines = []
  · simp [hd, ha, checkWhitespaceOnlyChanges, wsLoop]
  · simp [hd, ha, List.length_pos]
  · simp [hd, ha, List.length_pos]
  · have hiff := checkWhitespaceOnlyChanges_iff h
    have hd' : 0 < h.deleted_lines.length := List.length_pos.mpr hd
    have ha' : 0 < h.added_lines.length := List.length_pos.mpr ha
    have hc1 : (!decide (0 < h.deleted_lines.length) &&
        decide (0 < h.added_lines.length)) = false := by simp [hd']
    have hc2 : (decide (0 < h.deleted_lines.length) &&
        !decide (0 < h.added_lines.length)) = false := by simp [ha']
    have hp1 : ¬(h.deleted_lines = [] ∧ h.added_lines ≠ []) := by simp [hd]
    have hp2 : ¬(h.added_lines = [] ∧ h.deleted_lines ≠ []) := by simp [ha]
    rw [hc1, hc2]
    simp only [Bool.false_eq_true, if_false, if_neg hp1, if_neg hp2]
    by_cases hws : checkWhitespaceOnlyChanges h = true
    · rw [if_pos hws, if_pos (hiff.mp hws)]
    · rw [if_neg hws, if_neg (fun hc => hws (hiff.mpr hc)),
        if_pos (by simp [hd', ha'] : (decide (0 < h.deleted_lines.length) &&
          decide (0 < h.added_lines.length)) = true)]

theorem classifyCommon_mem (os ns : List (List Char × List Char))
    (ks : List (List Char)) (k : List Char) :
    (k ∈ (classifyCommon os ns ks).1 ↔
      k ∈ ks ∧ k ∈ ns.map Prod.fst ∧
        jsTrim ((objGet k os).getD []) ≠ jsTrim ((objGet k ns).getD [])) ∧
    (k ∈ (classifyCommon os ns ks).2 ↔
      k ∈ ks ∧ k ∈ ns.map Prod.fst ∧
        jsTrim ((objGet k os).getD []) = jsTrim ((objGet k ns).getD [])) := by
  induction ks with
  | nil => simp [classifyCommon]
  | cons k₁ rest ih =>
    simp only [classifyCommon]
    by_cases hk₁ : k = k₁
    · subst hk₁
      by_cases h₁ : k ∈ ns.map Prod.fst
      · by_cases h₂ : jsTrim ((objGet k os).getD []) ≠ jsTrim ((objGet k ns).getD [])
        · rw [if_pos h₁, if_pos h₂]
          simp [ih.1, ih.2, h₁, h₂]
        · rw [if_pos h₁, if_neg h₂]
          rw [not_not] at h₂
          simp [ih.1, ih.2, h₁, h₂]
      · rw [if_neg h₁]
        simp [ih.1, ih.2, h₁]
    · by_cases h₁ : k₁ ∈ ns.map Prod.fst
      · by_cases h₂ : jsTrim ((objGet k₁ os).getD []) ≠ jsTrim ((objGet k₁ ns).getD [])
        · rw [if_pos h₁, if_pos h₂]
          simp [List.mem_cons, hk₁, ih.1, ih.2]
        · rw [if_pos h₁, if_neg h₂]
          simp [List.mem_cons, hk₁, ih.1, ih.2]
      · rw [if_neg h₁]
        simp [List.mem_cons, hk₁, ih.1, ih.2]

theorem codeBlockPairErrors_self (l : List (List Char × List Char)) :
    ∀ i, codeBlockPairErrors i l l = [] := by
  induction l with
  | nil => intro i; rfl
  | cons p rest ih =>
    intro i
    obtain ⟨lang, code⟩ := p
    simp [codeBlockPairErrors, ih]

theorem missingKeys_self (s : DocStructure) : missingKeys s s = [] := by
  rw [missingKeys]
  apply List.filter_eq_nil_iff.mpr
  intro a ha
  simp [ha]

theorem extraKeys_self (s : DocStructure) : extraKeys s s = [] := by
  rw [extraKeys]
  apply List.filter_eq_nil_iff.mpr
  intro a ha
  simp [ha]

/-- C3: for every diff text, the parser returns exactly one hunk per line
matching the hunk-header pattern `@@ -O[,o] +N[,n] @@` — none dropped, none
duplicated, wherever metadata lines or end-of-input close a hunk. -/
theorem parseGitDiffDetailed_hunk_count (diffOutput : List Char) :
    (parseGitDiffDetailed diffOutput).length =
      (splitOnNl diffOutput).countP (fun l => (matchHunkHeader l).isSome) := by
  rw [parseGitDiffDetailed, List.length_map]
  simpa using parseLoop_length (splitOnNl diffOutput) none false

/-- C4: the classifier assigns every hunk exactly the operation given by the
priority rule: `add` when `deletedLines` is empty and `addedLines` is not,
`delete` in the symmetric case, `format` when the two lists are equal-length
and line-for-line equal after trimming, and `modify` otherwise. -/
theorem analyzeHunkOperation_priority (h : DiffHunk) :
    (analyzeHunkOperation h).operation = claimOperation h :=
  operation_eq_claimOperation h

/-- C5: the section segmenter partitions the document's lines: joining the
sections' `content` fields with newlines reproduces the document exactly,
so no line is lost, duplicated or shared between sections. -/
theorem parseMarkdownSections_partition (doc : List Char) :
    joinNl ((parseMarkdownSections doc).map MarkdownSection.content) = doc :=
  parseMarkdownSections_reassemble doc

/-- C9: a hunk with no deleted and no added lines is classified `format`,
not `modify`: the whitespace-only check holds vacuously and the add/delete
branches require a non-empty side. -/
theorem analyzeHunkOperation_empty_is_format (os oc ns nc : Int)
    (ctx : List (List Char)) (hdr : List Char) :
    (analyzeHunkOperation
      { old_start := os, old_count := oc, new_start := ns, new_count := nc,
        deleted_lines := [], added_lines := [], context_lines := ctx,
        header := hdr }).operation = str "format" := rfl

theorem affected_titles_nodup (hunks : List SecHunk) (sections : List MarkdownSection) :
    ((findAffectedSections hunks sections).map AffectedSection.section_title).Nodup := by
  obtain ⟨hnd, -⟩ := buildAffected_spec sections hunks
  have hmap : (findAffectedSections hunks sections).map AffectedSection.section_title =
      (buildAffected sections [] hunks).map Prod.fst := by
    rw [findAffectedSections, List.map_map]
    rfl
  rw [hmap]
  exact hnd

/-- C6: a hunk with a `new_start` is attributed only to the first section
(in document order) whose range `[start, end + 1]` contains it; when such a
section exists and the hunk is in the input, an entry bearing that section's
title contains the hunk; the entries carry pairwise distinct titles, so a
hunk is never attributed to more than one entry; and every returned entry
holds at least one hunk, so sections containing no hunk are omitted. -/
theorem findAffectedSections_first_match (hunks : List SecHunk)
    (sections : List MarkdownSection) (h : SecHunk) (n : Int) :
    ((findAffectedSections hunks sections).map AffectedSection.section_title).Nodup ∧
    (h.new_start = some n →
      (∀ e ∈ findAffectedSections hunks sections, h ∈ e.hunks →
        (sections.find? (fun s => inSection n s)).map MarkdownSection.title =
          some e.section_title) ∧
      (h ∈ hunks → ∀ s, sections.find? (fun s => inSection n s) = some s →
        ∃ e ∈ findAffectedSections hunks sections,
          e.section_title = s.title ∧ h ∈ e.hunks)) ∧
    (∀ e ∈ findAffectedSections hunks sections, e.hunks ≠ []) := by
  refine ⟨affected_titles_nodup hunks sections, ?_, ?_⟩
  · intro hns
    constructor
    · intro e he hmem
      rw [findAffectedSections] at he
      obtain ⟨⟨t, hs⟩, hp, rfl⟩ := List.mem_map.mp he
      have hc := (mem_buildAffected_iff sections hunks t hs).mp hp
      simp only at hmem
      rw [hc.2, keyFilter, List.mem_filter] at hmem
      have hk : hunkKey sections h = some t := by simpa using hmem.2
      rw [hunkKey, hns] at hk
      simpa using hk
    · intro hin s hfind
      have hk : hunkKey sections h = some s.title := by simp [hunkKey, hns, hfind]
      have hmem : h ∈ keyFilter sections hunks s.title :=
        List.mem_filter.mpr ⟨hin, by simp [hk]⟩
      have hne : keyFilter sections hunks s.title ≠ [] := by
        intro hEq
        rw [hEq] at hmem
        simp at hmem
      have hent : (s.title, keyFilter sections hunks s.title) ∈
          buildAffected sections [] hunks :=
        (mem_buildAffected_iff sections hunks s.title _).mpr ⟨hne, rfl⟩
      exact ⟨_, List.mem_map.mpr
        ⟨(s.title, keyFilter sections hunks s.title), hent, rfl⟩, rfl, hmem⟩
  · intro e he
    rw [findAffectedSections] at he
    obtain ⟨⟨t, hs⟩, hp, rfl⟩ := List.mem_map.mp he
    have hc := (mem_buildAffected_iff sections hunks t hs).mp hp
    simpa using fun hEq => hc.1 (hc.2 ▸ hEq)

/-- C10: the mapper keys its output by section title alone: the returned
entries carry pairwise distinct titles, and the entry titled `t` holds
exactly the hunks whose first matching section is titled `t` — so two
distinct sections sharing a title are merged into a single entry whose hunk
list and `total_changes` count cover both. -/
theorem findAffectedSections_title_keyed (hunks : List SecHunk)
    (sections : List MarkdownSection) :
    ((findAffectedSections hunks sections).map AffectedSection.section_title).Nodup ∧
    (∀ e ∈ findAffectedSections hunks sections,
      e.hunks = keyFilter sections hunks e.section_title ∧
      e.total_changes = e.hunks.length) := by
  refine ⟨affected_titles_nodup hunks sections, ?_⟩
  intro e he
  rw [findAffectedSections] at he
  obtain ⟨⟨t, hs⟩, hp, rfl⟩ := List.mem_map.mp he
  have hc := (mem_buildAffected_iff sections hunks t hs).mp hp
  exact ⟨hc.2, rfl⟩

/-- C7: the frontmatter check is asymmetric: source keys missing from the
target put a "Missing frontmatter keys" message in `errors` and force
`passed = false`, while extra target keys only put an "Extra frontmatter
keys" message in `warnings`; when no key is missing and the heading and
code-block checks are clean, `passed` is true regardless of extra keys. -/
theorem validatePair_frontmatter_asymmetry (source target : List Char)
    (sl tl : Option (List Char)) :
    (missingKeys (extractStructure source) (extractStructure target) ≠ [] →
      (str "Missing frontmatter keys: " ++
        joinCommaSp (missingKeys (extractStructure source) (extractStructure target))) ∈
        (validatePair source target sl tl).errors ∧
      (validatePair source target sl tl).passed = false) ∧
    (extraKeys (extractStructure source) (extractStructure target) ≠ [] →
      (str "Extra frontmatter keys: " ++
        joinCommaSp (extraKeys (extractStructure source) (extractStructure target))) ∈
        (validatePair source target sl tl).warnings) ∧
    (missingKeys (extractStructure source) (extractStructure target) = [] ∧
      headingErrors (extractStructure source) (extractStructure target) = [] ∧
      codeErrors (extractStructure source) (extractStructure target) = [] →
      (validatePair source target sl tl).passed = true) := by
  refine ⟨fun hm => ⟨?_, ?_⟩, fun hx => ?_, fun ⟨hm, hh, hc⟩ => ?_⟩
  · simp [validatePair, fmMissingErrors, hm]
  · simp [validatePair, fmMissingErrors, hm]
  · simp [validatePair, fmExtraWarnings, hx]
  · simp [validatePair, fmMissingErrors, hm, hh, hc]

/-- C8: the section change report's four lists partition the union of the
old and new key sets: `added` holds exactly the new keys absent from the old
document, `removed` the old keys absent from the new one, and `modified` and
`unchanged` split the common keys by trimmed-content inequality or equality;
every key of either document lands in exactly one list. -/
theorem compareSections_partition (oldContent newContent : List Char) (k : List Char) :
    (k ∈ (compareSections oldContent newContent).added ↔
      k ∈ (extractSections newContent).map Prod.fst ∧
      k ∉ (extractSections oldContent).map Prod.fst) ∧
    (k ∈ (compareSections oldContent newContent).removed ↔
      k ∈ (extractSections oldContent).map Prod.fst ∧
      k ∉ (extractSections newContent).map Prod.fst) ∧
    (k ∈ (compareSections oldContent newContent).modified ↔
      k ∈ (extractSections oldContent).map Prod.fst ∧
      k ∈ (extractSections newContent).map Prod.fst ∧
      jsTrim ((objGet k (extractSections oldContent)).getD []) ≠
        jsTrim ((objGet k (extractSections newContent)).getD [])) ∧
    (k ∈ (compareSections oldContent newContent).unchanged ↔
      k ∈ (extractSections oldContent).map Prod.fst ∧
      k ∈ (extractSections newContent).map Prod.fst ∧
      jsTrim ((objGet k (extractSections oldContent)).getD []) =
        jsTrim ((objGet k (extractSections newContent)).getD [])) ∧
    ((k ∈ (extractSections oldContent).map Prod.fst ∨
      k ∈ (extractSections newContent).map Prod.fst) ↔
      (k ∈ (compareSections oldContent newContent).added ∨
       k ∈ (compareSections oldContent newContent).removed ∨
       k ∈ (compareSections oldContent newContent).modified ∨
       k ∈ (compareSections oldContent newContent).unchanged)) := by
  have hmu := classifyCommon_mem (extractSections oldContent) (extractSections newContent)
    ((extractSections oldContent).map Prod.fst) k
  have hadd : (compareSections oldContent newContent).added =
      ((extractSections newContent).map Prod.fst).filter
        (fun k => !decide (k ∈ (extractSections oldContent).map Prod.fst)) := rfl
  have hrem : (compareSections oldContent newContent).removed =
      ((extractSections oldContent).map Prod.fst).filter
        (fun k => !decide (k ∈ (extractSections newContent).map Prod.fst)) := rfl
  have hmod : (compareSections oldContent newContent).modified =
      (classifyCommon (extractSections oldContent) (extractSections newContent)
        ((extractSections oldContent).map Prod.fst)).1 := rfl
  have hunc : (compareSections oldContent newContent).unchanged =
      (classifyCommon (extractSections oldContent) (extractSections newContent)
        ((extractSections oldContent).map Prod.fst)).2 := rfl
  have ha : k ∈ (compareSections oldContent newContent).added ↔
      k ∈ (extractSections newContent).map Prod.fst ∧
      k ∉ (extractSections oldContent).map Prod.fst := by
    rw [hadd, List.mem_filter]
    simp
  have hr : k ∈ (compareSections oldContent newContent).removed ↔
      k ∈ (extractSections oldContent).map Prod.fst ∧
      k ∉ (extractSections newContent).map Prod.fst := by
    rw [hrem, List.mem_filter]
    simp
  have hmo : k ∈ (compareSections oldContent newContent).modified ↔
      k ∈ (extractSections oldContent).map Prod.fst ∧
      k ∈ (extractSections newContent).map Prod.fst ∧
      jsTrim ((objGet k (extractSections oldContent)).getD []) ≠
        jsTrim ((objGet k (extractSections newContent)).getD []) := by
    rw [hmod]
    exact hmu.1
  have hun : k ∈ (compareSections oldContent newContent).unchanged ↔
      k ∈ (extractSections oldContent).map Prod.fst ∧
      k ∈ (extractSections newContent).map Prod.fst ∧
      jsTrim ((objGet k (extractSections oldContent)).getD []) =
        jsTrim ((objGet k (extractSections newContent)).getD []) := by
    rw [hunc]
    exact hmu.2
  refine ⟨ha, hr, hmo, hun, ?_⟩
  rw [ha, hr, hmo, hun]
  by_cases ho : k ∈ (extractSections oldContent).map Prod.fst <;>
    by_cases hn : k ∈ (extractSections newContent).map Prod.fst <;>
    by_cases ht : jsTrim ((objGet k (extractSections oldContent)).getD []) =
      jsTrim ((objGet k (extractSections newContent)).getD []) <;>
    simp [ho, hn, ht]

theorem flatMap_eq_nil_of_forall {α β : Type} {f : α → List β} :
    ∀ {l : List α}, (∀ x ∈ l, f x = []) → l.flatMap f = [] := by
  intro l
  induction l with
  | nil => intro _; rfl
  | cons x xs ih =>
    intro h
    rw [List.flatMap_cons, h x (by simp), ih (fun y hy => h y (by simp [hy]))]
    rfl

theorem validateLinkLocalization_self_no_target (links : List Link)
    (sourceLocale : Option (List Char)) :
    validateLinkLocalization links links sourceLocale none = [] := by
  rw [validateLinkLocalization, List.append_eq_nil]
  constructor
  · apply flatMap_eq_nil_of_forall
    intro tgtLink hmem
    by_cases hint : isInternalLink tgtLink.url
    · simp [hint]
    · by_cases hext : isExternalLink tgtLink.url
      · have hany : links.any (fun l => l.url == tgtLink.url) = true :=
          List.any_eq_true.mpr ⟨tgtLink, hmem, by simp⟩
        simp [hint, hext, hany]
      · simp [hint, hext]
  · apply flatMap_eq_nil_of_forall
    intro srcLink hmem
    by_cases hint : isInternalLink srcLink.url
    · cases sourceLocale <;> simp [hint]
    · simp [hint]

theorem localizationWarnings_self_no_target (s : DocStructure)
    (sourceLocale : Option (List Char)) :
    localizationWarnings s s sourceLocale none = [] := by
  rw [localizationWarnings]
  cases sourceLocale with
  | none => simp
  | some l => simp [validateLinkLocalization_self_no_target]

/-- C1 (amended): validating a document against a byte-identical copy yields
`passed = true` and an empty error list for every combination of supplied or
auto-detected locales; whenever the target locale is unknown, the warning
list is empty as well. -/
theorem validatePair_self_clean_any_locales (D : List Char)
    (sourceLocale targetLocale : Option (List Char)) :
    (validatePair D D sourceLocale targetLocale).passed = true ∧
    (validatePair D D sourceLocale targetLocale).errors = [] ∧
    (targetLocale = none → (validatePair D D sourceLocale targetLocale).warnings = []) := by
  have hm := missingKeys_self (extractStructure D)
  have hx := extraKeys_self (extractStructure D)
  refine ⟨?_, ?_, ?_⟩
  · simp [validatePair, headingErrors, codeErrors, codeBlockPairErrors_self,
      fmMissingErrors, hm]
  · simp [validatePair, headingErrors, codeErrors, codeBlockPairErrors_self,
      fmMissingErrors, hm]
  · rintro rfl
    simp [validatePair, linkCountWarnings, localizationWarnings_self_no_target,
      fmExtraWarnings, listItemWarnings, hx]

set_option maxRecDepth 8000 in
/-- C1 (counterexample): with locales `en` and `zh` supplied, validating the
one-link document against a byte-identical copy of itself still passes with
no errors, but emits two link-localization warnings — the warning list is
not empty, contradicting the claim for that locale combination. -/
theorem validatePair_identical_with_locales_warns :
    (validatePair localeDemoDoc localeDemoDoc
      (some (str "en")) (some (str "zh"))).passed = true ∧
    (validatePair localeDemoDoc localeDemoDoc
      (some (str "en")) (some (str "zh"))).errors = [] ∧
    (validatePair localeDemoDoc localeDemoDoc
      (some (str "en")) (some (str "zh"))).warnings.length = 2 := by
  decide

set_option maxRecDepth 8000 in
/-- C2 (code behaviour at the failing input): inside an open hunk, a line
beginning with `---` is consumed by the deleted-line branch and a line
beginning with `+++` by the added-line branch — each is appended with its
first character stripped, and the hunk is not closed — because the
`startsWith('-')` and `startsWith('+')` tests run before the metadata test. -/
theorem parseGitDiffDetailed_absorbs_marker_lines :
    (parseGitDiffDetailed markerDemoDiff).map
        (fun h => (h.deleted_lines, h.added_lines)) =
      [([str "-- a/guide.md"], [str "++ b/guide.md"])] := by
  decide

end MdI18n
